import Mathlib

set_option linter.unusedVariables false

/-!
Shallow embedding of the tag-store subsystem of launchpad-plus
(src/helpers.ts, src/launchpad.tsx, src/browse-apps.tsx).

Modelling conventions:
* A stored value in the LocalStorage key-value store is modelled by its
  JSON.parse result: `Option JSON`, where `none` stands for a non-empty stored
  string that is not valid JSON (JSON.parse throws on it).  `JSON.stringify`
  followed by `JSON.parse` is the identity on this representation.
* JavaScript objects are association lists in insertion order (string keys keep
  insertion order in JS); JSON.parse never produces duplicate keys, which
  theorems record as `Nodup` hypotheses on the key lists where it matters.
* Code that can raise a runtime TypeError (JSON.parse without try/catch,
  calling .filter on a non-array, spreading a non-iterable, property
  assignment on a primitive) is modelled in `Except Unit`.
* `Date.now()` is the `now` field of the component state; `generateId()` is
  modelled by an explicit id argument (freshness becomes a hypothesis).
* `TagEvents.emit` appends the event name to the `emitted` trace.
-/

/-- JSON values, as produced by the host JSON.parse. -/
inductive JSON where
  | jnull : JSON
  | jbool : Bool → JSON
  | jnum : Int → JSON
  | jstr : String → JSON
  | jarr : List JSON → JSON
  | jobj : List (String × JSON) → JSON

/-- JavaScript truthiness of a value. -/
def jsTruthy : JSON → Bool
  | .jnull => false
  | .jbool b => b
  | .jnum n => n != 0
  | .jstr s => !s.isEmpty
  | .jarr _ => true
  | .jobj _ => true

/-- JavaScript strict equality (===).  Arrays and objects compare by
reference; two separately parsed non-primitive values are never ===, so the
non-primitive cases are `false`. -/
def jsStrictEq : JSON → JSON → Bool
  | .jnull, .jnull => true
  | .jbool a, .jbool b => a == b
  | .jnum a, .jnum b => a == b
  | .jstr a, .jstr b => a == b
  | _, _ => false

/-- Association-list lookup (JS object property read / store getItem). -/
def alistGet {α : Type} : List (String × α) → String → Option α
  | [], _ => none
  | p :: rest, k => if p.1 = k then some p.2 else alistGet rest k

/-- Association-list update: overwrite in place when the key is present
(JS keeps the original insertion position), append otherwise. -/
def alistSet {α : Type} : List (String × α) → String → α → List (String × α)
  | [], k, v => [(k, v)]
  | p :: rest, k, v => if p.1 = k then (k, v) :: rest else p :: alistSet rest k v

/- Reserved record keys, from src/constants.ts usage sites. -/

def TAG_ORDER_KEY : String := "tagorder"

def TAG_DEFINITIONS_KEY : String := "tagdefinitions"

def REFRESH_KEY : String := "refreshVersion"

def reservedKeys : List String := [TAG_DEFINITIONS_KEY, TAG_ORDER_KEY, REFRESH_KEY]

/-- The LocalStorage contents: key ↦ raw value (none = not valid JSON). -/
abbrev Store := List (String × Option JSON)

/-!  TagRecordCodec: the three inline decoders of loadStoredTags
(src/helpers.ts lines 30-51).  Each guards JSON.parse with try/catch, so a
missing key or a parse failure degrades to the empty default; only the
assignment decoder additionally checks the shape (Array.isArray). -/

/-- `if (stored[TAG_DEFINITIONS_KEY]) try definitions = JSON.parse(...) catch` -/
def decodeTagDefinitions : Option (Option JSON) → JSON
  | some (some v) => v
  | _ => .jobj []

/-- `if (stored[TAG_ORDER_KEY]) try order = JSON.parse(...) catch` -/
def decodeTagOrder : Option (Option JSON) → JSON
  | some (some v) => v
  | _ => .jarr []

/-- Per-entry assignment decoding: `parsed = JSON.parse(value);
if (Array.isArray(parsed)) parsedTags[key] = parsed` (a parse failure or a
non-array shape leaves the key out of the map). -/
def decodeAppTags : Option JSON → Option (List JSON)
  | some (.jarr xs) => some xs
  | _ => none

/-- The assignment map built by the loop over Object.entries(stored),
skipping the three reserved keys (`continue`) and the entries whose decoding
fails or is not an array. -/
def assignView : Store → List (String × List JSON)
  | [] => []
  | p :: rest =>
    if p.1 ∈ reservedKeys then assignView rest
    else
      match decodeAppTags p.2 with
      | some xs => (p.1, xs) :: assignView rest
      | none => assignView rest

/-- The assignment record visible at one key of the store. -/
def assignRecord (s : Store) (k : String) : Option (List JSON) :=
  if k ∈ reservedKeys then none else (alistGet s k).bind decodeAppTags

/-- Object.keys: keys of an object, index strings of a string, [] for other
primitives, TypeError on null. -/
def objKeysE : JSON → Except Unit (List String)
  | .jnull => .error ()
  | .jobj fields => .ok (fields.map Prod.fst)
  | .jstr s => .ok ((List.range s.length).map toString)
  | _ => .ok []

/-- `allTagIds.includes(v)` where allTagIds is an array of strings. -/
def jsIncludes (l : List String) : JSON → Bool
  | .jstr s => decide (s ∈ l)
  | _ => false

/-- `v.length === 0`: length of arrays and strings, an explicit length
property of objects; undefined (hence not === 0) otherwise. -/
def jsLenIsZero : JSON → Bool
  | .jarr xs => xs.isEmpty
  | .jstr s => s.isEmpty
  | .jobj fields =>
    (match alistGet fields "length" with
     | some (.jnum 0) => true
     | _ => false)
  | _ => false

/-- Order reconciliation (src/helpers.ts lines 53-55):
`if (order.length === 0) order = allTagIds;
else order = [...order.filter((id) => allTagIds.includes(id)),
              ...allTagIds.filter((id) => !order.includes(id))]`.
Calling .filter on a decoded non-array raises a TypeError. -/
def reconcileOrder (orderJ : JSON) (allTagIds : List String) : Except Unit (List JSON) :=
  if jsLenIsZero orderJ then .ok (allTagIds.map .jstr)
  else
    match orderJ with
    | .jarr xs =>
      .ok (xs.filter (fun v => jsIncludes allTagIds v)
        ++ (allTagIds.filter
              (fun i => !(xs.any (fun v => jsStrictEq v (.jstr i))))).map .jstr)
    | _ => .error ()

/-- What loadStoredTags returns. -/
structure LoadResult where
  tags : List (String × List JSON)
  tagDefinitions : JSON
  tagOrder : List JSON

/-- LocalStorage.allItems: a read returning the items, store unchanged. -/
def allItems (s : Store) : Store × Store := (s, s)

/-- loadStoredTags (src/helpers.ts lines 20-58).  The first component is the
store after the call; the operation only reads. -/
def loadStoredTags (s : Store) : Store × Except Unit LoadResult :=
  let (s1, stored) := allItems s
  let definitions := decodeTagDefinitions (alistGet stored TAG_DEFINITIONS_KEY)
  let order := decodeTagOrder (alistGet stored TAG_ORDER_KEY)
  let parsedTags := assignView stored
  (s1,
    match objKeysE definitions with
    | .error e => .error e
    | .ok allTagIds =>
      match reconcileOrder order allTagIds with
      | .error e => .error e
      | .ok tagOrder => .ok ⟨parsedTags, definitions, tagOrder⟩)

/-- The reconciliation formula as the specification words it: stored order
entries filtered to those present in definitions, then definition ids absent
from the stored order in object-key iteration order. -/
def specReconciledOrder (storedOrder definitionIds : List String) : List String :=
  storedOrder.filter (fun i => decide (i ∈ definitionIds))
    ++ definitionIds.filter (fun i => decide (i ∉ storedOrder))

/-!  The Command component state (src/launchpad.tsx).  `memTags` is the
React `tags` state (per-app id lists cached from the store); mirrors that the
verified operations never read back (tagDefinitions/tagOrder states) are not
carried. -/

structure AppState where
  store : Store
  memTags : List (String × List JSON)
  now : Nat
  emitted : List String

/-- The definition object literal `{ id, name, color }`. -/
def defJSON (id name color : String) : JSON :=
  .jobj [("id", .jstr id), ("name", .jstr name), ("color", .jstr color)]

/-- `str ? JSON.parse(str) : default` — no try/catch in the CRUD operations,
so an unparseable stored value raises. -/
def parseStored (r : Option (Option JSON)) (dflt : JSON) : Except Unit JSON :=
  match r with
  | some (some v) => .ok v
  | some none => .error ()
  | none => .ok dflt

/-- Own-property lookup on a value (undefined = none): used to state facts
about an object's own keys (e.g. that a deleted id is gone from the
definitions record).  The full host property read — which also walks the
prototype chain and raises on null — is `jsPropRead` below. -/
def jsPropGet : JSON → String → Option JSON
  | .jobj fields, k => alistGet fields k
  | _, _ => none

/-- The result of a host property read on a JSON.parse-produced value: an
own JSON value, an inherited Object.prototype method (a truthy function
whose `.name` is the given string), Object.prototype itself (a truthy
object whose `.name` is undefined — reached through the `__proto__`
accessor), or undefined. -/
inductive JsProp where
  | val : JSON → JsProp
  | protoFun : String → JsProp
  | protoObj : JsProp
  | undefined : JsProp

/-- The method names of Object.prototype: reading any of these on a plain
parsed object with no own entry of that name yields the inherited function
(truthy, with `.name` equal to the method name). -/
def objectProtoMethods : List String :=
  ["hasOwnProperty", "isPrototypeOf", "propertyIsEnumerable", "toLocaleString",
   "toString", "valueOf", "__defineGetter__", "__defineSetter__",
   "__lookupGetter__", "__lookupSetter__"]

/-- All property keys a read can hit through the prototype chain of a plain
parsed object: the `__proto__` accessor (yielding Object.prototype itself),
`constructor` (the Object function, whose `.name` is "Object"), and the
Object.prototype methods. -/
def protoKeys : List String := "__proto__" :: "constructor" :: objectProtoMethods

/-- Host property read `v[k]`: a TypeError on null; on a plain object an own
property shadows the Object.prototype chain, a miss falls through to the
inherited entries of `protoKeys`, and any other key is undefined.
Wrapper/Array/String prototype hits of the remaining primitive receivers are
not modelled (they read as undefined here): every theorem below restricts
such receivers to objects, null, or absent records decoding to objects. -/
def jsPropRead : JSON → String → Except Unit JsProp
  | .jnull, _ => .error ()
  | .jobj fields, k =>
    (match alistGet fields k with
     | some v => .ok (.val v)
     | none =>
       if k = "__proto__" then .ok .protoObj
       else if k = "constructor" then .ok (.protoFun "Object")
       else if k ∈ objectProtoMethods then .ok (.protoFun k)
       else .ok .undefined)
  | _, _ => .ok .undefined

/-- Truthiness of a property-read result (`if (!defs[id])`): inherited
prototype hits are functions or objects, hence truthy. -/
def jsPropTruthy : JsProp → Bool
  | .val v => jsTruthy v
  | .protoFun _ => true
  | .protoObj => true
  | .undefined => false

/-- JS property assignment `v[k] = x`; a TypeError on primitives (the source
runs as an ES module, hence in strict mode). -/
def jsObjSet : JSON → String → JSON → Except Unit JSON
  | .jobj fields, k, v => .ok (.jobj (alistSet fields k v))
  | _, _, _ => .error ()

/-- `delete v[k]`: removes the key of an object, TypeError on null, silent
no-op on other primitives. -/
def jsDeleteProp : JSON → String → Except Unit JSON
  | .jnull, _ => .error ()
  | .jobj fields, k => .ok (.jobj (fields.filter (fun p => p.1 != k)))
  | v, _ => .ok v

/-- Array spread `[...v]`: the elements of an array, the characters of a
string, TypeError on non-iterables. -/
def jsSpreadArr : JSON → Except Unit (List JSON)
  | .jarr xs => .ok xs
  | .jstr s => .ok (s.toList.map (fun c => .jstr (String.singleton c)))
  | _ => .error ()

/-- `order.filter((tagId) => tagId !== id)`; TypeError on non-arrays. -/
def jsFilterOutId (v : JSON) (id : String) : Except Unit (List JSON) :=
  match v with
  | .jarr xs => .ok (xs.filter (fun x => !(jsStrictEq x (.jstr id))))
  | _ => .error ()

/-- persistRefreshVersion: `LocalStorage.setItem(REFRESH_KEY, Date.now().toString())`. -/
def persistRefreshVersion (st : AppState) : AppState :=
  { st with store := alistSet st.store REFRESH_KEY (some (.jstr (toString st.now))) }

/-- saveTags (src/launchpad.tsx lines 153-159): overwrite one assignment
record, bump the refresh version, emit the change signal. -/
def saveTags (st : AppState) (bundleIdOrPath : String) (tagList : List String) : AppState :=
  let newTags := alistSet st.memTags bundleIdOrPath (tagList.map .jstr)
  let st1 := { st with
    memTags := newTags
    store := alistSet st.store bundleIdOrPath (some (.jarr (tagList.map .jstr))) }
  let st2 := persistRefreshVersion st1
  { st2 with emitted := st2.emitted ++ ["tagsUpdated"] }

/-- createTag (src/launchpad.tsx lines 161-177); `id` stands for the value
returned by generateId().  Each failing step (uncaught JSON.parse, property
assignment on a primitive, spreading a non-iterable) propagates as an
exception. -/
def createTag (st : AppState) (id name color : String) : Except Unit AppState :=
  match parseStored (alistGet st.store TAG_DEFINITIONS_KEY) (.jobj []) with
  | .error e => .error e
  | .ok defs =>
    match jsObjSet defs id (defJSON id name color) with
    | .error e => .error e
    | .ok defs2 =>
      let s1 := alistSet st.store TAG_DEFINITIONS_KEY (some defs2)
      match parseStored (alistGet s1 TAG_ORDER_KEY) (.jarr []) with
      | .error e => .error e
      | .ok order =>
        match jsSpreadArr order with
        | .error e => .error e
        | .ok order2 =>
          let s2 := alistSet s1 TAG_ORDER_KEY (some (.jarr (order2 ++ [.jstr id])))
          let st1 := persistRefreshVersion { st with store := s2 }
          .ok { st1 with emitted := st1.emitted ++ ["tagsUpdated"] }

/-- The assignment-rewrite loop of deleteTag: every cached assignment is
written back with the id filtered out (the Array.isArray guard is always
satisfied: the cached values are arrays by construction). -/
def writeTagRecords (s : Store) : List (String × List JSON) → Store
  | [] => s
  | (k, xs) :: rest => writeTagRecords (alistSet s k (some (.jarr xs))) rest

/-- deleteTag (src/launchpad.tsx lines 191-213): remove the definition,
rewrite every cached assignment with the id filtered out, filter the order,
then persist order, definitions, refresh version, and emit. -/
def deleteTag (st : AppState) (id : String) : Except Unit AppState :=
  match parseStored (alistGet st.store TAG_DEFINITIONS_KEY) (.jobj []) with
  | .error e => .error e
  | .ok defs =>
    match jsDeleteProp defs id with
    | .error e => .error e
    | .ok defs2 =>
      let newTags := st.memTags.map
        (fun p => (p.1, p.2.filter (fun x => !(jsStrictEq x (.jstr id)))))
      let s1 := writeTagRecords st.store newTags
      match parseStored (alistGet s1 TAG_ORDER_KEY) (.jarr []) with
      | .error e => .error e
      | .ok order =>
        match jsFilterOutId order id with
        | .error e => .error e
        | .ok order2 =>
          let s2 := alistSet s1 TAG_ORDER_KEY (some (.jarr order2))
          let s3 := alistSet s2 TAG_DEFINITIONS_KEY (some defs2)
          let st1 := persistRefreshVersion { st with store := s3, memTags := newTags }
          .ok { st1 with emitted := st1.emitted ++ ["tagsUpdated"] }

/-- isValidHexColor (src/helpers.ts line 16) and the inline regex test of the
forms: `/^#[0-9A-F]{6}$/i.test(color)`. -/
def isValidHexColor (color : String) : Bool :=
  match color.toList with
  | '#' :: rest =>
    rest.length == 6 && rest.all (fun c =>
      ('0' ≤ c && c ≤ '9') || ('A' ≤ c && c ≤ 'F') || ('a' ≤ c && c ≤ 'f'))
  | _ => false

inductive FormOutcome where
  | validationError : String → FormOutcome
  | created : FormOutcome
deriving DecidableEq, Repr

/-- CreateTagForm.handle (src/browse-apps.tsx lines 527-542): caller-side
validation; `onCreate` (which ends in `createTag`) runs only after both
checks pass. -/
def createTagFormHandle (st : AppState) (id name color : String) :
    Except Unit (AppState × FormOutcome) :=
  if name = "" then .ok (st, .validationError "Tag name cannot be empty")
  else if !(isValidHexColor color) then .ok (st, .validationError "Invalid HEX color")
  else (createTag st id name color).map (fun st2 => (st2, .created))

/-! Search and pagination (src/launchpad.tsx lines 218-256). -/

structure App where
  name : String
  path : String
  bundleId : Option String
deriving DecidableEq, Repr

/-- `app.bundleId ?? app.path`. -/
def appKey (a : App) : String := a.bundleId.getD a.path

/-- `tags[key] ?? []`. -/
def readAppTags (tagsMem : List (String × List JSON)) (k : String) : List JSON :=
  (alistGet tagsMem k).getD []

/-- JS String.prototype.includes: substring containment. -/
def strIncludes (s q : String) : Bool :=
  (s.toList.tails).any (fun t => q.toList.isPrefixOf t)

/-- JS toLowerCase, modelled per character. -/
def strToLower (s : String) : String := String.mk (s.toList.map Char.toLower)

/-- JS String.prototype.startsWith. -/
def strStartsWith (s p : String) : Bool := p.toList.isPrefixOf s.toList

/-- JS slice(1). -/
def strDrop1 (s : String) : String := String.mk (s.toList.drop 1)

/-- `tags[key] ?? []` followed immediately by an array method call
(`.some`/`.map`): an own entry yields its list, a genuine miss yields the
`?? []` default, and a key colliding with an inherited Object.prototype
entry yields a truthy non-array (so `??` does not apply) whose `.some` call
then raises a TypeError. -/
def readAppTagsE (tagsMem : List (String × List JSON)) (k : String) :
    Except Unit (List JSON) :=
  match alistGet tagsMem k with
  | some xs => .ok xs
  | none => if k ∈ protoKeys then .error () else .ok []

/-- `p?.name.toLowerCase().includes(q)` on one resolved property-read
result: null and undefined short-circuit to a non-match; a resolved value
without a string `.name` makes the `.toLowerCase()` call raise (this
includes Object.prototype itself, whose `.name` is undefined); an inherited
method matches through the function's `.name`. -/
def nameMatchE (q : String) : JsProp → Except Unit Bool
  | .undefined => .ok false
  | .val .jnull => .ok false
  | .protoFun n => .ok (strIncludes (strToLower n) q)
  | .protoObj => .error ()
  | .val v =>
    (match (match v with
            | .jobj fs => alistGet fs "name"
            | _ => none) with
     | some (.jstr n) => .ok (strIncludes (strToLower n) q)
     | _ => .error ())

/-- `tagDefinitions[id]?.name.toLowerCase().includes(q)`.  Assignment lists
written by this extension contain only string ids, so the property-key
coercion of non-string values is not modelled (such values never match);
every theorem below quantifies over string ids. -/
def tagMatchesE (tagDefinitions : JSON) (q : String) : JSON → Except Unit Bool
  | .jstr s =>
    (match jsPropRead tagDefinitions s with
     | .error e => .error e
     | .ok p => nameMatchE q p)
  | _ => .ok false

/-- `appTagIds.some((id) => ...)`: left-to-right, stops at the first match,
and a raise inside the callback propagates. -/
def anyMatchE (defs : JSON) (q : String) : List JSON → Except Unit Bool
  | [] => .ok false
  | idv :: rest =>
    match tagMatchesE defs q idv with
    | .error e => .error e
    | .ok true => .ok true
    | .ok false => anyMatchE defs q rest

/-- The `allApps.filter(...)` of the tag-filter branch: each app's
assignment list is read (`tags[...] ?? []`) and tested with `.some`; any
raise propagates out of the filter. -/
def filterMatchingApps (defs : JSON) (q : String)
    (tags : List (String × List JSON)) : List App → Except Unit (List App)
  | [] => .ok []
  | a :: rest =>
    match ((match readAppTagsE tags (appKey a) with
            | .error e => .error e
            | .ok ids => anyMatchE defs q ids) : Except Unit Bool) with
    | .error e => .error e
    | .ok true =>
      (match filterMatchingApps defs q tags rest with
       | .error e => .error e
       | .ok l => .ok (a :: l))
    | .ok false => filterMatchingApps defs q tags rest

/-- filteredApps (src/launchpad.tsx lines 219-229); the Fuse index is the
opaque external collaborator `fuzzy`. -/
def filteredAppsE (fuzzy : String → List App) (allApps : List App)
    (tags : List (String × List JSON)) (tagDefinitions : JSON)
    (searchText : String) : Except Unit (List App) :=
  if searchText = "" then .ok allApps
  else if strStartsWith searchText "#" then
    filterMatchingApps tagDefinitions (strToLower (strDrop1 searchText)) tags allApps
  else .ok (fuzzy searchText)

/-- `appTagIds.map((id) => tagDefinitions[id])`: each read can raise (null
receiver); otherwise the property-read results are collected. -/
def resolveIdsE (tagDefinitions : JSON) : List JSON → Except Unit (List JsProp)
  | [] => .ok []
  | idv :: rest =>
    match (match idv with
           | .jstr s => jsPropRead tagDefinitions s
           | _ => .ok .undefined) with
    | .error e => .error e
    | .ok p =>
      (match resolveIdsE tagDefinitions rest with
       | .error e => .error e
       | .ok ps => .ok (p :: ps))

/-- The accessory computation (src/launchpad.tsx lines 252-256):
`appTagIds.map((id) => tagDefinitions[id]).filter(Boolean)`, keeping the
truthy property-read results that get rendered — inherited prototype hits
included (the final rendering map only reads `.name`/`.color`, which never
raises). -/
def accessoryDefsE (tagDefinitions : JSON) (appTagIds : List JSON) :
    Except Unit (List JsProp) :=
  match resolveIdsE tagDefinitions appTagIds with
  | .error e => .error e
  | .ok ps => .ok (ps.filter jsPropTruthy)

/-- loadData sorts the installed apps by name
(`installedApps.sort((a, b) => a.name.localeCompare(b.name))`); locale
collation is modelled by the string order. -/
def sortApps (apps : List App) : List App :=
  List.insertionSort (fun a b => a.name ≤ b.name) apps

/-- `filteredApps.slice(0, visibleCount)`. -/
def visibleSlice (filtered : List App) (visibleCount : Nat) : List App :=
  filtered.take visibleCount

/-- onSelectionChange (src/launchpad.tsx lines 242-248): findIndex yields -1
when the selected id is not visible; grow by one page when the index is
within 5 of the end and not everything is visible yet.  `none` models a null
or empty selection id (`if (!id) return`). -/
def onSelectionChange (pageSize : Nat) (filtered : List App) (visibleCount : Nat)
    (selectedId : Option String) : Nat :=
  match selectedId with
  | none => visibleCount
  | some sid =>
    let visible := visibleSlice filtered visibleCount
    let index : Int :=
      match visible.findIdx? (fun (a : App) => a.path == sid) with
      | some i => Int.ofNat i
      | none => -1
    let len : Int := Int.ofNat visible.length
    if decide (index ≥ len - 5) && decide (visibleCount < filtered.length) then
      visibleCount + pageSize
    else visibleCount

/-- `useEffect(() => setVisibleCount(PAGE_SIZE), [searchText])`. -/
def resetVisibleCount (pageSize : Nat) (searchText : String) : Nat := pageSize

/-! Basic lemmas about the association-list primitives. -/

theorem alistGet_alistSet_self {α : Type} (l : List (String × α)) (k : String) (v : α) :
    alistGet (alistSet l k v) k = some v := by
  induction l with
  | nil => simp [alistSet, alistGet]
  | cons p rest ih =>
    by_cases hp : p.1 = k
    · simp [alistSet, hp, alistGet]
    · simp [alistSet, hp, alistGet, ih]

theorem alistGet_alistSet_ne {α : Type} (l : List (String × α)) (k k' : String) (v : α)
    (h : k' ≠ k) : alistGet (alistSet l k v) k' = alistGet l k' := by
  have h2 : k ≠ k' := Ne.symm h
  induction l with
  | nil => simp [alistSet, alistGet, h2]
  | cons p rest ih =>
    by_cases hp : p.1 = k
    · subst hp
      have h3 : ¬ p.1 = k' := h2
      simp [alistSet, alistGet, h3]
    · by_cases hp' : p.1 = k'
      · simp [alistSet, hp, alistGet, hp', h]
      · simp [alistSet, hp, alistGet, hp', ih]

theorem alistSet_eq_append {α : Type} (l : List (String × α)) (k : String) (v : α)
    (h : k ∉ l.map Prod.fst) : alistSet l k v = l ++ [(k, v)] := by
  induction l with
  | nil => simp [alistSet]
  | cons p rest ih =>
    simp only [List.map_cons, List.mem_cons] at h
    push_neg at h
    have h1 : ¬ p.1 = k := fun hh => h.1 hh.symm
    simp [alistSet, h1, ih h.2]

theorem alistGet_mem {α : Type} (l : List (String × α)) (k : String) (v : α)
    (h : alistGet l k = some v) : (k, v) ∈ l := by
  induction l with
  | nil => simp [alistGet] at h
  | cons p rest ih =>
    by_cases hp : p.1 = k
    · simp only [alistGet, hp, if_pos] at h
      have hv : p.2 = v := Option.some.inj h
      have hpkv : p = (k, v) := by
        cases p with
        | mk a b =>
          simp only at hp hv
          rw [hp, hv]
    
      rw [← hpkv]
      exact List.mem_cons_self p rest
    · simp only [alistGet, hp, if_neg, ite_false] at h
      exact List.mem_cons_of_mem _ (ih h)

theorem alistGet_eq_none_of_not_mem {α : Type} (l : List (String × α)) (k : String)
    (h : k ∉ l.map Prod.fst) : alistGet l k = none := by
  induction l with
  | nil => simp [alistGet]
  | cons p rest ih =>
    simp only [List.map_cons, List.mem_cons] at h
    push_neg at h
    have h1 : ¬ p.1 = k := fun hh => h.1 hh.symm
    simp [alistGet, h1, ih h.2]

theorem alistGet_filterKeyNe {α : Type} (l : List (String × α)) (k : String) :
    alistGet (l.filter (fun p => p.1 != k)) k = none := by
  induction l with
  | nil => simp [alistGet]
  | cons p rest ih =>
    by_cases hp : p.1 = k
    · simp [List.filter_cons, hp, ih]
    · have h1 : (p.1 != k) = true := by simp [hp]
      simp [List.filter_cons, h1, alistGet, hp, ih]

theorem alistGet_mapVal {α β : Type} (f : α → β) (l : List (String × α)) (k : String) :
    alistGet (l.map (fun p => (p.1, f p.2))) k = (alistGet l k).map f := by
  induction l with
  | nil => simp [alistGet]
  | cons p rest ih =>
    by_cases hp : p.1 = k
    · simp [alistGet, hp]
    · simp [alistGet, hp, ih]

/-! Lemmas about the assignment view of the store. -/

theorem assignView_mem_elim (s : Store) (q : String × List JSON) (h : q ∈ assignView s) :
    ∃ r, (q.1, r) ∈ s ∧ decodeAppTags r = some q.2 ∧ q.1 ∉ reservedKeys := by
  induction s with
  | nil => simp [assignView] at h
  | cons p rest ih =>
    by_cases hres : p.1 ∈ reservedKeys
    · rw [assignView, if_pos hres] at h
      obtain ⟨r, hr, hd, hnr⟩ := ih h
      exact ⟨r, List.mem_cons_of_mem _ hr, hd, hnr⟩
    · rw [assignView, if_neg hres] at h
      cases hd : decodeAppTags p.2 with
      | none =>
        rw [hd] at h
        obtain ⟨r, hr, hdr, hnr⟩ := ih h
        exact ⟨r, List.mem_cons_of_mem _ hr, hdr, hnr⟩
      | some xs =>
        rw [hd] at h
        rcases List.mem_cons.mp h with h | h
        · subst h
          exact ⟨p.2, List.mem_cons_self _ _, hd, hres⟩
        · obtain ⟨r, hr, hdr, hnr⟩ := ih h
          exact ⟨r, List.mem_cons_of_mem _ hr, hdr, hnr⟩

theorem alistGet_assignView_reserved (s : Store) (k : String) (hres : k ∈ reservedKeys) :
    alistGet (assignView s) k = none := by
  cases hv : alistGet (assignView s) k with
  | none => rfl
  | some v =>
    obtain ⟨r, _, _, hnr⟩ := assignView_mem_elim s (k, v) (alistGet_mem _ _ _ hv)
    exact absurd hres hnr

theorem assignView_keys_mem (s : Store) (k : String) (h : k ∈ (assignView s).map Prod.fst) :
    k ∈ s.map Prod.fst := by
  obtain ⟨q, hq, hk⟩ := List.mem_map.mp h
  obtain ⟨r, hr, _, _⟩ := assignView_mem_elim s q hq
  rw [← hk]
  exact List.mem_map.mpr ⟨(q.1, r), hr, rfl⟩

theorem alistGet_assignView (s : Store) (hnd : (s.map Prod.fst).Nodup) (k : String) :
    alistGet (assignView s) k = assignRecord s k := by
  by_cases hres : k ∈ reservedKeys
  · rw [alistGet_assignView_reserved s k hres]
    simp [assignRecord, hres]
  · induction s with
    | nil => simp [assignView, assignRecord, alistGet, hres]
    | cons p rest ih =>
      simp only [List.map_cons, List.nodup_cons] at hnd
      by_cases hpres : p.1 ∈ reservedKeys
      · have hpk : ¬ p.1 = k := fun hh => hres (hh ▸ hpres)
        rw [assignView, if_pos hpres, ih hnd.2]
        simp [assignRecord, hres, alistGet, hpk]
      · by_cases hk : p.1 = k
        · subst hk
          cases hd : decodeAppTags p.2 with
          | some xs =>
            rw [assignView, if_neg hpres, hd]
            simp [assignRecord, hres, alistGet, hd]
          | none =>
            have hget : alistGet (assignView rest) p.1 = none := by
              apply alistGet_eq_none_of_not_mem
              intro hmem
              exact hnd.1 (assignView_keys_mem rest p.1 hmem)
            rw [assignView, if_neg hpres, hd, hget]
            simp [assignRecord, hres, alistGet, hd]
        · cases hd : decodeAppTags p.2 with
          | some xs =>
            rw [assignView, if_neg hpres, hd]
            rw [show alistGet ((p.1, xs) :: assignView rest) k
              = alistGet (assignView rest) k by simp [alistGet, hk]]
            rw [ih hnd.2]
            simp [assignRecord, hres, alistGet, hk]
          | none =>
            rw [assignView, if_neg hpres, hd, ih hnd.2]
            simp [assignRecord, hres, alistGet, hk]

theorem assignView_keys_sublist (s : Store) :
    List.Sublist ((assignView s).map Prod.fst) (s.map Prod.fst) := by
  induction s with
  | nil => simp [assignView]
  | cons p rest ih =>
    by_cases hres : p.1 ∈ reservedKeys
    · rw [assignView, if_pos hres]
      exact List.Sublist.cons _ ih
    · rw [assignView, if_neg hres]
      cases hd : decodeAppTags p.2 with
      | none => exact List.Sublist.cons _ ih
      | some xs =>
        simp only [List.map_cons]
        exact List.Sublist.cons₂ _ ih

theorem alistGet_writeTagRecords (entries : List (String × List JSON)) (s : Store) (k : String)
    (hnd : (entries.map Prod.fst).Nodup) :
    alistGet (writeTagRecords s entries) k =
      (alistGet entries k).elim (alistGet s k) (fun xs => some (some (JSON.jarr xs))) := by
  induction entries generalizing s with
  | nil => simp [writeTagRecords, alistGet]
  | cons p rest ih =>
    cases p with
    | mk k0 xs0 =>
      simp only [List.map_cons, List.nodup_cons] at hnd
      by_cases hk : k0 = k
      · subst hk
        rw [writeTagRecords, ih _ hnd.2]
        have hrest : alistGet rest k0 = none := alistGet_eq_none_of_not_mem _ _ hnd.1
        simp [alistGet, hrest, alistGet_alistSet_self]
      · rw [writeTagRecords, ih _ hnd.2]
        have hk2 : k ≠ k0 := fun hh => hk hh.symm
        simp [alistGet, hk, alistGet_alistSet_ne _ _ _ _ hk2]

/-! Well-formed definition records and search lemmas. -/

/-- Every entry of the definitions object is a definition object
`{ id, name, color }` whose id equals its key — the shape every write of
this extension produces. -/
def DefsWF (fields : List (String × JSON)) : Prop :=
  ∀ p ∈ fields, ∃ n c, p.2 = defJSON p.1 n c

theorem jsTruthy_defJSON (id n c : String) : jsTruthy (defJSON id n c) = true := rfl

theorem jstr_injective : Function.Injective JSON.jstr :=
  fun a b h => JSON.jstr.inj h

theorem defJSON_inj_name (s n c n' c' : String)
    (h : defJSON s n' c' = defJSON s n c) : n' = n := by
  have h3 := congrArg (fun j => jsPropGet j "name") h
  have h4 : some (JSON.jstr n') = some (JSON.jstr n) := h3
  exact JSON.jstr.inj (Option.some.inj h4)

theorem jsPropRead_own (fields : List (String × JSON)) (s : String) (v : JSON)
    (h : alistGet fields s = some v) :
    jsPropRead (.jobj fields) s = .ok (.val v) := by
  simp only [jsPropRead, h]

theorem jsPropRead_miss (fields : List (String × JSON)) (s : String)
    (hs : s ∉ protoKeys) (h : alistGet fields s = none) :
    jsPropRead (.jobj fields) s = .ok .undefined := by
  have h1 : ¬ s = "__proto__" := fun hh => hs (by rw [hh]; exact List.mem_cons_self _ _)
  have h2 : ¬ s = "constructor" := fun hh =>
    hs (by rw [hh]; exact List.mem_cons_of_mem _ (List.mem_cons_self _ _))
  have h3 : s ∉ objectProtoMethods := fun hh =>
    hs (List.mem_cons_of_mem _ (List.mem_cons_of_mem _ hh))
  simp only [jsPropRead, h, if_neg h1, if_neg h2, if_neg h3]

theorem tagMatchesE_none (fields : List (String × JSON)) (q s : String)
    (hs : s ∉ protoKeys) (h : alistGet fields s = none) :
    tagMatchesE (.jobj fields) q (.jstr s) = .ok false := by
  simp only [tagMatchesE, jsPropRead_miss fields s hs h]
  rfl

theorem tagMatchesE_def (fields : List (String × JSON)) (q s n c : String)
    (h : alistGet fields s = some (defJSON s n c)) :
    tagMatchesE (.jobj fields) q (.jstr s) = .ok (strIncludes (strToLower n) q) := by
  simp only [tagMatchesE, jsPropRead_own fields s _ h]
  rfl

theorem anyMatchE_ok (fields : List (String × JSON)) (hwf : DefsWF fields) (q : String)
    (ids : List JSON)
    (hsafe : ∀ v ∈ ids, ∃ s, v = JSON.jstr s ∧
      (s ∉ protoKeys ∨ (alistGet fields s).isSome)) :
    ∃ b, anyMatchE (.jobj fields) q ids = .ok b ∧
      (b = true ↔ ∃ s n c, JSON.jstr s ∈ ids ∧ alistGet fields s = some (defJSON s n c) ∧
        strIncludes (strToLower n) q = true) := by
  induction ids with
  | nil => exact ⟨false, rfl, by simp⟩
  | cons v ids ih =>
    obtain ⟨s, rfl, hss⟩ := hsafe _ (List.mem_cons_self _ _)
    obtain ⟨b, hb, hbiff⟩ := ih (fun x hx => hsafe x (List.mem_cons_of_mem _ hx))
    cases hown : alistGet fields s with
    | none =>
      have hsp : s ∉ protoKeys := by
        rcases hss with h | h
        · exact h
        · rw [hown] at h
          simp at h
      have hm := tagMatchesE_none fields q s hsp hown
      refine ⟨b, ?_, ?_⟩
      · simp only [anyMatchE, hm]
        exact hb
      · rw [hbiff]
        constructor
        · rintro ⟨s', n, c, hmem, hget, hinc⟩
          exact ⟨s', n, c, List.mem_cons_of_mem _ hmem, hget, hinc⟩
        · rintro ⟨s', n, c, hmem, hget, hinc⟩
          rcases List.mem_cons.mp hmem with heq | hmem2
          · have hss2 : s' = s := JSON.jstr.inj heq
            rw [hss2, hown] at hget
            exact absurd hget (by simp)
          · exact ⟨s', n, c, hmem2, hget, hinc⟩
    | some v0 =>
      obtain ⟨n, c, hd⟩ := hwf (s, v0) (alistGet_mem _ _ _ hown)
      have hown2 : alistGet fields s = some (defJSON s n c) := by
        rw [hown]
        exact congrArg some hd
      have hm := tagMatchesE_def fields q s n c hown2
      cases hinc : strIncludes (strToLower n) q with
      | true =>
        refine ⟨true, ?_, ?_⟩
        · simp only [anyMatchE, hm, hinc]
        · constructor
          · intro _
            exact ⟨s, n, c, List.mem_cons_self _ _, hown2, hinc⟩
          · intro _
            rfl
      | false =>
        refine ⟨b, ?_, ?_⟩
        · simp only [anyMatchE, hm, hinc]
          exact hb
        · rw [hbiff]
          constructor
          · rintro ⟨s', n', c', hmem, hget, hinc2⟩
            exact ⟨s', n', c', List.mem_cons_of_mem _ hmem, hget, hinc2⟩
          · rintro ⟨s', n', c', hmem, hget, hinc2⟩
            rcases List.mem_cons.mp hmem with heq | hmem2
            · have hss2 : s' = s := JSON.jstr.inj heq
              subst hss2
              have heq2 : defJSON s' n' c' = defJSON s' n c :=
                Option.some.inj (hget.symm.trans hown2)
              rw [defJSON_inj_name s' n c n' c' heq2] at hinc2
              rw [hinc2] at hinc
              exact Bool.noConfusion hinc
            · exact ⟨s', n', c', hmem2, hget, hinc2⟩

theorem readAppTagsE_safe (tags : List (String × List JSON)) (k : String)
    (h : k ∉ protoKeys ∨ (alistGet tags k).isSome) :
    readAppTagsE tags k = .ok (readAppTags tags k) := by
  cases hg : alistGet tags k with
  | some xs => simp [readAppTagsE, readAppTags, hg]
  | none =>
    rcases h with h | h
    · simp [readAppTagsE, readAppTags, hg, if_neg h]
    · rw [hg] at h
      simp at h

theorem filterMatchingApps_ok (fields : List (String × JSON)) (hwf : DefsWF fields)
    (q : String) (tags : List (String × List JSON)) (apps : List App)
    (hst : ∀ p ∈ tags, ∀ v ∈ p.2, ∃ s, v = JSON.jstr s ∧
      (s ∉ protoKeys ∨ (alistGet fields s).isSome))
    (hsa : ∀ a ∈ apps, appKey a ∉ protoKeys ∨ (alistGet tags (appKey a)).isSome) :
    ∃ res, filterMatchingApps (.jobj fields) q tags apps = .ok res ∧
      ∀ x, x ∈ res ↔ (x ∈ apps ∧ ∃ s n c, JSON.jstr s ∈ readAppTags tags (appKey x) ∧
        alistGet fields s = some (defJSON s n c) ∧
        strIncludes (strToLower n) q = true) := by
  induction apps with
  | nil => exact ⟨[], rfl, by simp⟩
  | cons a apps ih =>
    have hA := hsa a (List.mem_cons_self _ _)
    have hread := readAppTagsE_safe tags (appKey a) hA
    have hmemsafe : ∀ v ∈ readAppTags tags (appKey a), ∃ s, v = JSON.jstr s ∧
        (s ∉ protoKeys ∨ (alistGet fields s).isSome) := by
      intro v hv
      cases hg : alistGet tags (appKey a) with
      | none =>
        simp only [readAppTags, hg, Option.getD_none] at hv
        simp at hv
      | some xs =>
        simp only [readAppTags, hg, Option.getD_some] at hv
        exact hst (appKey a, xs) (alistGet_mem _ _ _ hg) v hv
    obtain ⟨b, hb, hbiff⟩ := anyMatchE_ok fields hwf q (readAppTags tags (appKey a)) hmemsafe
    obtain ⟨res, hres, hresiff⟩ := ih (fun x hx => hsa x (List.mem_cons_of_mem _ hx))
    cases b with
    | true =>
      refine ⟨a :: res, ?_, ?_⟩
      · simp only [filterMatchingApps, hread, hb, hres]
      · intro x
        have hPa := hbiff.mp rfl
        constructor
        · intro hx
          rcases List.mem_cons.mp hx with rfl | hx2
          · exact ⟨List.mem_cons_self _ _, hPa⟩
          · obtain ⟨hm, hp⟩ := (hresiff x).mp hx2
            exact ⟨List.mem_cons_of_mem _ hm, hp⟩
        · rintro ⟨hm, hp⟩
          rcases List.mem_cons.mp hm with rfl | hm2
          · exact List.mem_cons_self _ _
          · exact List.mem_cons_of_mem _ ((hresiff x).mpr ⟨hm2, hp⟩)
    | false =>
      refine ⟨res, ?_, ?_⟩
      · simp only [filterMatchingApps, hread, hb, hres]
      · intro x
        rw [hresiff x]
        constructor
        · rintro ⟨hm, hp⟩
          exact ⟨List.mem_cons_of_mem _ hm, hp⟩
        · rintro ⟨hm, hp⟩
          rcases List.mem_cons.mp hm with rfl | hm2
          · exact absurd (hbiff.mpr hp) (by simp)
          · exact ⟨hm2, hp⟩

theorem resolveIdsE_safe (fields : List (String × JSON)) (ids : List String)
    (hsafe : ∀ s ∈ ids, s ∉ protoKeys ∨ (alistGet fields s).isSome) :
    resolveIdsE (.jobj fields) (ids.map .jstr)
      = .ok (ids.map (fun s =>
          match alistGet fields s with
          | some v => JsProp.val v
          | none => JsProp.undefined)) := by
  induction ids with
  | nil => rfl
  | cons s ids ih =>
    have hs := hsafe s (List.mem_cons_self _ _)
    have hrest := ih (fun x hx => hsafe x (List.mem_cons_of_mem _ hx))
    cases hg : alistGet fields s with
    | some v =>
      simp only [List.map_cons, resolveIdsE, jsPropRead_own fields s v hg, hrest, hg]
    | none =>
      have hsp : s ∉ protoKeys := by
        rcases hs with h | h
        · exact h
        · rw [hg] at h
          simp at h
      simp only [List.map_cons, resolveIdsE, jsPropRead_miss fields s hsp hg, hrest, hg]

theorem filter_truthy_resolved (fields : List (String × JSON)) (hwf : DefsWF fields)
    (ids : List String) :
    (ids.map (fun s =>
        match alistGet fields s with
        | some v => JsProp.val v
        | none => JsProp.undefined)).filter jsPropTruthy
      = (ids.filterMap (fun s => alistGet fields s)).map JsProp.val := by
  induction ids with
  | nil => rfl
  | cons s ids ih =>
    cases hg : alistGet fields s with
    | none =>
      simp only [List.map_cons, List.filterMap_cons, List.filter_cons, hg]
      simpa using ih
    | some v =>
      obtain ⟨n, c, hd⟩ := hwf (s, v) (alistGet_mem _ _ _ hg)
      have htr : jsPropTruthy (JsProp.val v) = true := by
        show jsTruthy v = true
        rw [show v = defJSON s n c from hd]
        rfl
      simp only [List.map_cons, List.filterMap_cons, List.filter_cons, hg, htr]
      simp [ih]

theorem strStartsWith_hash_ne_empty (q : String) (h : strStartsWith q "#" = true) :
    q ≠ "" := by
  intro hq
  subst hq
  exact absurd h (by decide)

/-! Lemmas relating the JS-level list operations to their string-level
counterparts on arrays of id strings. -/

theorem filter_jsIncludes_map (L K : List String) :
    (L.map JSON.jstr).filter (fun v => jsIncludes K v)
      = (L.filter (fun i => decide (i ∈ K))).map JSON.jstr := by
  induction L with
  | nil => simp
  | cons a L ih =>
    have hhead : jsIncludes K (JSON.jstr a) = decide (a ∈ K) := rfl
    by_cases h : a ∈ K
    · simp [List.filter_cons, hhead, h, ih]
    · simp [List.filter_cons, hhead, h, ih]

theorem any_strictEq_jstr (L : List String) (i : String) :
    (L.map JSON.jstr).any (fun v => jsStrictEq v (.jstr i)) = decide (i ∈ L) := by
  induction L with
  | nil => simp
  | cons a L ih =>
    have hhead : jsStrictEq (JSON.jstr a) (JSON.jstr i) = (a == i) := rfl
    by_cases h : a = i
    · subst h
      simp [List.any_cons, hhead]
    · have h2 : ¬ i = a := fun hh => h hh.symm
      simp [List.any_cons, hhead, h, h2, ih, List.mem_cons]

theorem filter_out_jstr (xs : List String) (id : String) :
    (xs.map JSON.jstr).filter (fun v => !(jsStrictEq v (.jstr id)))
      = (xs.filter (fun x => x != id)).map JSON.jstr := by
  induction xs with
  | nil => simp
  | cons a xs ih =>
    have hhead : jsStrictEq (JSON.jstr a) (JSON.jstr id) = (a == id) := rfl
    by_cases h : a = id
    · subst h
      simp [List.filter_cons, hhead, ih]
    · simp [List.filter_cons, hhead, h, ih]

theorem jstr_not_mem_filter_out (xs : List JSON) (id : String) :
    JSON.jstr id ∉ xs.filter (fun v => !(jsStrictEq v (.jstr id))) := by
  intro h
  have h2 := (List.mem_filter.mp h).2
  have hhead : jsStrictEq (JSON.jstr id) (JSON.jstr id) = true := by
    simp [jsStrictEq]
  rw [hhead] at h2
  simp at h2

theorem map_fst_filter_keyNe {α : Type} (l : List (String × α)) (id : String) :
    (l.filter (fun p => p.1 != id)).map Prod.fst
      = (l.map Prod.fst).filter (fun x => x != id) := by
  induction l with
  | nil => simp
  | cons p rest ih =>
    by_cases h : p.1 = id
    · simp [List.filter_cons, h, ih]
    · simp [List.filter_cons, h, ih]

/-! Claim theorems. -/

/-- C10: load performs no writes to the KeyValueStore: the order
reconciliation is applied only to the in-memory result, so after any load
every record of the store is identical to what it was before the load, even
when the stored order violated the order invariant. -/
theorem C10_load_performs_no_writes :
    ∀ s : Store, (loadStoredTags s).1 = s ∧
      (∀ k, alistGet (loadStoredTags s).1 k = alistGet s k) :=
  fun s => ⟨rfl, fun k => rfl⟩

/-- C3 (amended): the assignment-list decoder returns the empty default on a
missing value, a parse failure, and a wrong shape, and never raises; the
definitions and order decoders return the empty default on a missing value
and a parse failure only — wrong-shape valid JSON is passed through
unchanged rather than replaced by the empty default. -/
theorem C3_decode_defaults :
    (decodeTagDefinitions none = .jobj [] ∧ decodeTagDefinitions (some none) = .jobj [] ∧
      ∀ v, decodeTagDefinitions (some (some v)) = v) ∧
    (decodeTagOrder none = .jarr [] ∧ decodeTagOrder (some none) = .jarr [] ∧
      ∀ v, decodeTagOrder (some (some v)) = v) ∧
    (decodeAppTags none = none ∧ (∀ xs, decodeAppTags (some (.jarr xs)) = some xs) ∧
      (∀ v, (∀ xs, v ≠ .jarr xs) → decodeAppTags (some v) = none) ∧
      ∀ k, readAppTags [] k = []) := by
  refine ⟨⟨rfl, rfl, fun v => rfl⟩, ⟨rfl, rfl, fun v => rfl⟩,
    rfl, fun xs => rfl, ?_, fun k => rfl⟩
  intro v hv
  cases v with
  | jnull => rfl
  | jbool b => rfl
  | jnum n => rfl
  | jstr s => rfl
  | jarr xs => exact absurd rfl (hv xs)
  | jobj fs => rfl

/-- Witness for C3 at the concrete inputs of the claim: the wrong-shape
number 42 is dropped by the assignment decoder and passed through by the
order decoder. -/
theorem C3_decode_defaults_witness :
    decodeAppTags (some (.jnum 42)) = none ∧
      decodeTagOrder (some (some (.jnum 42))) = .jnum 42 :=
  ⟨C3_decode_defaults.2.2.2.2.1 (.jnum 42) (fun xs h => JSON.noConfusion h),
   C3_decode_defaults.2.1.2.2 (.jnum 42)⟩

/-- C3 counterexample: the claim as stated is false — decoding the valid but
wrong-shape JSON "42" as the order record yields the number 42, not the
empty list. -/
theorem C3_counterexample :
    decodeTagOrder (some (some (.jnum 42))) = .jnum 42 ∧ JSON.jnum 42 ≠ .jarr [] :=
  ⟨rfl, fun h => JSON.noConfusion h⟩

/-- C4 (amended): validation is caller-side: the create-tag form handler
fails with a validation error and does not invoke createTag (the state,
store included, is returned unchanged) when the name is empty or the color
does not match the hex pattern; createTag itself performs no validation. -/
theorem C4_validation_gate_form :
    ∀ (st : AppState) (id name color : String),
      (name = "" →
        createTagFormHandle st id name color
          = .ok (st, .validationError "Tag name cannot be empty")) ∧
      (name ≠ "" → isValidHexColor color = false →
        createTagFormHandle st id name color
          = .ok (st, .validationError "Invalid HEX color")) := by
  intro st id name color
  constructor
  · intro h
    simp [createTagFormHandle, h]
  · intro h1 h2
    simp [createTagFormHandle, h1, h2]

/-- Witness for C4 at the claim's concrete inputs. -/
theorem C4_validation_gate_form_witness :
    createTagFormHandle ⟨[], [], 0, []⟩ "tag_1" "" "#FFFFFF"
        = .ok (⟨[], [], 0, []⟩, .validationError "Tag name cannot be empty") ∧
      createTagFormHandle ⟨[], [], 0, []⟩ "tag_1" "x" "red"
        = .ok (⟨[], [], 0, []⟩, .validationError "Invalid HEX color") :=
  ⟨(C4_validation_gate_form ⟨[], [], 0, []⟩ "tag_1" "" "#FFFFFF").1 rfl,
   (C4_validation_gate_form ⟨[], [], 0, []⟩ "tag_1" "x" "red").2 (by decide) rfl⟩

/-- The state after `createTag("", "#FFFFFF")` from an empty store. -/
def c4After : AppState :=
  ⟨[(TAG_DEFINITIONS_KEY, some (.jobj [("tag_1", defJSON "tag_1" "" "#FFFFFF")])),
    (TAG_ORDER_KEY, some (.jarr [.jstr "tag_1"])),
    (REFRESH_KEY, some (.jstr "0"))], [], 0, ["tagsUpdated"]⟩

/-- C4 counterexample: the claim as stated is false — createTag with an
empty name does not fail and writes the TagDefinitions and TagOrder records
(the store changes, from empty to populated). -/
theorem C4_counterexample :
    createTag ⟨[], [], 0, []⟩ "tag_1" "" "#FFFFFF" = .ok c4After ∧
      alistGet c4After.store TAG_DEFINITIONS_KEY
        = some (some (.jobj [("tag_1", defJSON "tag_1" "" "#FFFFFF")])) ∧
      alistGet ([] : Store) TAG_DEFINITIONS_KEY = none :=
  ⟨rfl, rfl, rfl⟩

/-- C8 (amended): for every key other than the three reserved record keys,
setAppTags (saveTags) sets the assignment record for that key to exactly the
given tag-id list — an empty list is kept as an explicit record, and the ids
need not reference existing definitions — leaves every other record (other
assignments, definitions, order) unchanged, writes a new refresh version,
and emits the change signal.  (Unamended, the claim fails: a key equal to a
reserved record key overwrites that record.) -/
theorem C8_saveTags_frame :
    ∀ (st : AppState) (k : String) (tagIds : List String),
      k ∉ reservedKeys →
      alistGet (saveTags st k tagIds).store k = some (some (.jarr (tagIds.map .jstr))) ∧
      assignRecord (saveTags st k tagIds).store k = some (tagIds.map .jstr) ∧
      (∀ k2, k2 ≠ k → k2 ≠ REFRESH_KEY →
        alistGet (saveTags st k tagIds).store k2 = alistGet st.store k2) ∧
      alistGet (saveTags st k tagIds).store TAG_DEFINITIONS_KEY
        = alistGet st.store TAG_DEFINITIONS_KEY ∧
      alistGet (saveTags st k tagIds).store TAG_ORDER_KEY
        = alistGet st.store TAG_ORDER_KEY ∧
      alistGet (saveTags st k tagIds).store REFRESH_KEY
        = some (some (.jstr (toString st.now))) ∧
      (saveTags st k tagIds).memTags = alistSet st.memTags k (tagIds.map .jstr) ∧
      (saveTags st k tagIds).emitted = st.emitted ++ ["tagsUpdated"] := by
  intro st k tagIds hres
  have hkRF : k ≠ REFRESH_KEY := by
    intro hh
    exact hres (by rw [hh]; simp [reservedKeys])
  have hkDK : TAG_DEFINITIONS_KEY ≠ k := by
    intro hh
    exact hres (by rw [← hh]; simp [reservedKeys])
  have hkOK : TAG_ORDER_KEY ≠ k := by
    intro hh
    exact hres (by rw [← hh]; simp [reservedKeys])
  have hDKRF : TAG_DEFINITIONS_KEY ≠ REFRESH_KEY := by decide
  have hOKRF : TAG_ORDER_KEY ≠ REFRESH_KEY := by decide
  have hget : alistGet (saveTags st k tagIds).store k
      = some (some (.jarr (tagIds.map .jstr))) := by
    show alistGet (alistSet (alistSet st.store k (some (.jarr (tagIds.map .jstr))))
      REFRESH_KEY (some (.jstr (toString st.now)))) k = _
    rw [alistGet_alistSet_ne _ _ _ _ hkRF, alistGet_alistSet_self]
  refine ⟨hget, ?_, ?_, ?_, ?_, ?_, rfl, rfl⟩
  · rw [assignRecord, if_neg hres, hget]
    rfl
  · intro k2 hk2 hk2RF
    show alistGet (alistSet (alistSet st.store k (some (.jarr (tagIds.map .jstr))))
      REFRESH_KEY (some (.jstr (toString st.now)))) k2 = _
    rw [alistGet_alistSet_ne _ _ _ _ hk2RF, alistGet_alistSet_ne _ _ _ _ hk2]
  · show alistGet (alistSet (alistSet st.store k (some (.jarr (tagIds.map .jstr))))
      REFRESH_KEY (some (.jstr (toString st.now)))) TAG_DEFINITIONS_KEY = _
    rw [alistGet_alistSet_ne _ _ _ _ hDKRF, alistGet_alistSet_ne _ _ _ _ hkDK]
  · show alistGet (alistSet (alistSet st.store k (some (.jarr (tagIds.map .jstr))))
      REFRESH_KEY (some (.jstr (toString st.now)))) TAG_ORDER_KEY = _
    rw [alistGet_alistSet_ne _ _ _ _ hOKRF, alistGet_alistSet_ne _ _ _ _ hkOK]
  · show alistGet (alistSet (alistSet st.store k (some (.jarr (tagIds.map .jstr))))
      REFRESH_KEY (some (.jstr (toString st.now)))) REFRESH_KEY = _
    rw [alistGet_alistSet_self]

/-- Witness for C8: an empty assignment is stored as an explicit record for
key "A", definitions record untouched. -/
theorem C8_saveTags_frame_witness :
    alistGet (saveTags ⟨[(TAG_DEFINITIONS_KEY, some (.jobj []))], [], 0, []⟩ "A" []).store "A"
        = some (some (.jarr [])) ∧
      assignRecord
          (saveTags ⟨[(TAG_DEFINITIONS_KEY, some (.jobj []))], [], 0, []⟩ "A" []).store "A"
        = some [] ∧
      alistGet (saveTags ⟨[(TAG_DEFINITIONS_KEY, some (.jobj []))], [], 0, []⟩ "A" []).store
          TAG_DEFINITIONS_KEY
        = alistGet ([(TAG_DEFINITIONS_KEY, some (.jobj []))] : Store) TAG_DEFINITIONS_KEY := by
  have h := C8_saveTags_frame ⟨[(TAG_DEFINITIONS_KEY, some (.jobj []))], [], 0, []⟩ "A" []
    (by decide)
  exact ⟨h.1, h.2.1, h.2.2.2.1⟩

/-- The state before the colliding write of the C8 counterexample. -/
def c8Before : AppState :=
  ⟨[(TAG_DEFINITIONS_KEY, some (.jobj [("x", defJSON "x" "Work" "#FF0000")]))], [], 0, []⟩

/-- C8 counterexample: the claim as stated ("every key") is false — saving
tags under the key "tagdefinitions" overwrites the definitions record
instead of leaving it unchanged. -/
theorem C8_counterexample :
    alistGet (saveTags c8Before "tagdefinitions" []).store TAG_DEFINITIONS_KEY
        = some (some (.jarr [])) ∧
      alistGet c8Before.store TAG_DEFINITIONS_KEY
        = some (some (.jobj [("x", defJSON "x" "Work" "#FF0000")])) ∧
      (some (some (JSON.jarr [])) : Option (Option JSON))
        ≠ some (some (.jobj [("x", defJSON "x" "Work" "#FF0000")])) :=
  ⟨rfl, rfl, by simp⟩

/-- C9: pagination: the initial visible window is one page; a selection
landing within the fixed lookahead (5) of the last visible item grows the
window by one page while the window is smaller than the filtered count; the
visible item count never exceeds the filtered count; growth stops once
everything is visible; a query change resets the window to one page.  The
page size is the PAGE_SIZE constant, kept as a parameter. -/
theorem C9_pagination :
    ∀ (pageSize : Nat) (filtered : List App) (vc : Nat) (sid : String) (i : Nat) (q : String),
      (visibleSlice filtered pageSize).length = min pageSize filtered.length ∧
      (visibleSlice filtered vc).length ≤ filtered.length ∧
      ((visibleSlice filtered vc).findIdx? (fun (a : App) => a.path == sid) = some i →
        Int.ofNat i ≥ Int.ofNat (visibleSlice filtered vc).length - 5 →
        vc < filtered.length →
        onSelectionChange pageSize filtered vc (some sid) = vc + pageSize) ∧
      (filtered.length ≤ vc →
        onSelectionChange pageSize filtered vc (some sid) = vc) ∧
      resetVisibleCount pageSize q = pageSize := by
  intro pageSize filtered vc sid i q
  refine ⟨?_, ?_, ?_, ?_, rfl⟩
  · simp [visibleSlice]
  · simp [visibleSlice]
  · intro hf hge hlt
    simp only [onSelectionChange, hf]
    rw [decide_eq_true hge, decide_eq_true hlt]
    simp
  · intro hge
    have hnl : ¬ vc < filtered.length := Nat.not_lt.mpr hge
    cases hf : (visibleSlice filtered vc).findIdx? (fun (a : App) => a.path == sid) with
    | none =>
      simp only [onSelectionChange, hf]
      rw [decide_eq_false hnl]
      simp
    | some j =>
      simp only [onSelectionChange, hf]
      rw [decide_eq_false hnl]
      simp

/-- The five-app list of the C9 witness. -/
def apps5 : List App :=
  [⟨"a1", "p1", none⟩, ⟨"a2", "p2", none⟩, ⟨"a3", "p3", none⟩,
   ⟨"a4", "p4", none⟩, ⟨"a5", "p5", none⟩]

/-- Witness for C9 with page size 2 and 5 filtered results: the visible
count goes 2, 4, then caps at 5 visible items and stops growing. -/
theorem C9_pagination_witness :
    onSelectionChange 2 apps5 2 (some "p2") = 2 + 2 ∧
      onSelectionChange 2 apps5 4 (some "p4") = 4 + 2 ∧
      (visibleSlice apps5 2).length = 2 ∧
      (visibleSlice apps5 4).length = 4 ∧
      (visibleSlice apps5 6).length = 5 ∧
      onSelectionChange 2 apps5 6 (some "p5") = 6 ∧
      resetVisibleCount 2 "q" = 2 := by
  refine ⟨?_, ?_, rfl, rfl, rfl, ?_, ?_⟩
  · exact (C9_pagination 2 apps5 2 "p2" 1 "q").2.2.1 rfl (by decide) (by decide)
  · exact (C9_pagination 2 apps5 4 "p4" 3 "q").2.2.1 rfl (by decide) (by decide)
  · exact (C9_pagination 2 apps5 6 "p5" 0 "q").2.2.2.1 (by decide)
  · exact (C9_pagination 2 apps5 6 "p5" 0 "q").2.2.2.2

instance : IsTotal App (fun a b => a.name ≤ b.name) :=
  ⟨fun a b => le_total a.name b.name⟩

instance : IsTrans App (fun a b => a.name ≤ b.name) :=
  ⟨fun a b c hab hbc => le_trans hab hbc⟩

/-- C5 (amended): provided every assigned tag id is a string that is not an
inherited Object.prototype property name (or has a definition shadowing
it), and no application's assignment key is such an inherited name without
an explicit record: the empty query returns the full name-sorted
application list unchanged; a query beginning with '#' evaluates without
raising and keeps exactly the applications some assigned tag id of which
resolves to a definition whose lowercased name contains the lowercased
query text after the '#'; any other non-empty query is routed to the fuzzy
name search.  (Without the proviso the "exactly" fails: the property read
walks the prototype chain, so a dangling assigned id equal to an inherited
method name matches queries against that function's name.) -/
theorem C5_query_routing :
    ∀ (fuzzy : String → List App) (apps : List App) (tags : List (String × List JSON))
      (fields : List (String × JSON)) (q : String),
      DefsWF fields →
      (∀ p ∈ tags, ∀ v ∈ p.2, ∃ s, v = JSON.jstr s ∧
        (s ∉ protoKeys ∨ (alistGet fields s).isSome)) →
      (∀ a ∈ apps, appKey a ∉ protoKeys ∨ (alistGet tags (appKey a)).isSome) →
      (filteredAppsE fuzzy (sortApps apps) tags (.jobj fields) "" = .ok (sortApps apps) ∧
        List.Sorted (fun a b : App => a.name ≤ b.name) (sortApps apps)) ∧
      (strStartsWith q "#" = true →
        ∃ res, filteredAppsE fuzzy apps tags (.jobj fields) q = .ok res ∧
          ∀ a, a ∈ res ↔ (a ∈ apps ∧ ∃ s n c, JSON.jstr s ∈ readAppTags tags (appKey a) ∧
            alistGet fields s = some (defJSON s n c) ∧
            strIncludes (strToLower n) (strToLower (strDrop1 q)) = true)) ∧
      (q ≠ "" → strStartsWith q "#" = false →
        filteredAppsE fuzzy apps tags (.jobj fields) q = .ok (fuzzy q)) := by
  intro fuzzy apps tags fields q hwf hst hsa
  refine ⟨⟨by simp [filteredAppsE], List.sorted_insertionSort _ apps⟩, ?_, ?_⟩
  · intro hq
    have hne := strStartsWith_hash_ne_empty q hq
    obtain ⟨res, hres, hiff⟩ := filterMatchingApps_ok fields hwf
      (strToLower (strDrop1 q)) tags apps hst hsa
    refine ⟨res, ?_, hiff⟩
    simp only [filteredAppsE, if_neg hne, hq, if_true]
    exact hres
  · intro h1 h2
    simp [filteredAppsE, h1, h2]

/-- Concrete data for the C5 and C6 witnesses (the spec's Alpha/Beta
example, with the "work" tag attached to Alpha through a tag id). -/
def alphaApp : App := ⟨"Alpha", "/a", none⟩

def betaApp : App := ⟨"Beta", "/b", none⟩

def wfFields : List (String × JSON) := [("t1", defJSON "t1" "work" "#FF0000")]

def abTags : List (String × List JSON) := [("/a", [.jstr "t1"])]

theorem wfFields_wf : DefsWF wfFields := by
  intro p hp
  simp only [wfFields, List.mem_singleton] at hp
  subst hp
  exact ⟨"work", "#FF0000", rfl⟩

theorem abTags_safe : ∀ p ∈ abTags, ∀ v ∈ p.2, ∃ s, v = JSON.jstr s ∧
    (s ∉ protoKeys ∨ (alistGet wfFields s).isSome) := by
  intro p hp v hv
  simp only [abTags, List.mem_singleton] at hp
  subst hp
  simp only [List.mem_singleton] at hv
  exact ⟨"t1", hv, Or.inl (by decide)⟩

/-- Witness for C5: query "#wo" matches Alpha (whose tag resolves to
"work"), and a plain query is routed to the fuzzy search. -/
theorem C5_query_routing_witness :
    (∃ res, filteredAppsE (fun _ => [alphaApp]) [alphaApp, betaApp] abTags
        (.jobj wfFields) "#wo" = .ok res ∧ alphaApp ∈ res) ∧
      filteredAppsE (fun _ => [alphaApp]) [alphaApp, betaApp] abTags
        (.jobj wfFields) "alph" = .ok [alphaApp] := by
  constructor
  · obtain ⟨res, hres, hiff⟩ := (C5_query_routing (fun _ => [alphaApp])
      [alphaApp, betaApp] abTags wfFields "#wo"
      wfFields_wf abTags_safe (by decide)).2.1 rfl
    refine ⟨res, hres, (hiff alphaApp).mpr ?_⟩
    exact ⟨List.mem_cons_self _ _, "t1", "work", "#FF0000", List.mem_cons_self _ _, rfl, rfl⟩
  · exact (C5_query_routing (fun _ => [alphaApp]) [alphaApp, betaApp] abTags wfFields "alph"
      wfFields_wf abTags_safe (by decide)).2.2 (by decide) rfl

/-- The app of the C5 counterexample, carrying one dangling assigned id. -/
def protoApp : App := ⟨"Gamma", "/g", none⟩

/-- C5 counterexample: the claim as stated is false — with an empty (hence
well-formed) definitions record and an application whose only assigned id
is the dangling "toString", the tag-filter query "#tostring" returns the
application: the property read finds the inherited
Object.prototype.toString function, whose .name "toString" matches the
query, although no assigned id resolves to a definition. -/
theorem C5_counterexample :
    filteredAppsE (fun _ => []) [protoApp] [("/g", [.jstr "toString"])] (.jobj [])
        "#tostring" = .ok [protoApp] ∧
      alistGet ([] : List (String × JSON)) "toString" = none ∧
      DefsWF ([] : List (String × JSON)) :=
  ⟨rfl, rfl, fun p hp => absurd hp (List.not_mem_nil p)⟩

/-- C6 (amended): with well-formed definitions, dangling assigned ids that
are not inherited Object.prototype property names are skipped without
raising: the rendered accessory list is exactly the resolved definitions of
the assigned ids that have one, a dangling id never matches in tag-filter
evaluation, and removing the dangling ids leaves the tag-filter outcome
unchanged.  (Without the proviso the claim fails: a dangling id colliding
with an inherited property name is rendered and can match a tag filter
through the inherited function's name, and the dangling id "__proto__"
makes tag-filter evaluation raise.) -/
theorem C6_dangling_tolerance :
    ∀ (fields : List (String × JSON)) (ids : List String) (q : String),
      DefsWF fields →
      (∀ s ∈ ids, s ∉ protoKeys ∨ (alistGet fields s).isSome) →
      (accessoryDefsE (.jobj fields) (ids.map .jstr)
        = .ok ((ids.filterMap (fun s => alistGet fields s)).map JsProp.val)) ∧
      (∀ s ∈ ids, alistGet fields s = none →
        tagMatchesE (.jobj fields) q (.jstr s) = .ok false) ∧
      (∃ b, anyMatchE (.jobj fields) q (ids.map .jstr) = .ok b ∧
        anyMatchE (.jobj fields) q
          ((ids.filter (fun s => (alistGet fields s).isSome)).map .jstr) = .ok b) := by
  intro fields ids q hwf hsafe
  refine ⟨?_, ?_, ?_⟩
  · simp only [accessoryDefsE, resolveIdsE_safe fields ids hsafe,
      filter_truthy_resolved fields hwf ids]
  · intro s hs hnone
    have hsp : s ∉ protoKeys := by
      rcases hsafe s hs with h | h
      · exact h
      · rw [hnone] at h
        simp at h
    exact tagMatchesE_none fields q s hsp hnone
  · have hsafe1 : ∀ v ∈ ids.map JSON.jstr, ∃ s, v = JSON.jstr s ∧
        (s ∉ protoKeys ∨ (alistGet fields s).isSome) := by
      intro v hv
      obtain ⟨s, hs, rfl⟩ := List.mem_map.mp hv
      exact ⟨s, rfl, hsafe s hs⟩
    have hsafe2 : ∀ v ∈ (ids.filter (fun s => (alistGet fields s).isSome)).map JSON.jstr,
        ∃ s, v = JSON.jstr s ∧ (s ∉ protoKeys ∨ (alistGet fields s).isSome) := by
      intro v hv
      obtain ⟨s, hs, rfl⟩ := List.mem_map.mp hv
      exact ⟨s, rfl, hsafe s (List.mem_of_mem_filter hs)⟩
    obtain ⟨b, hb, hbiff⟩ := anyMatchE_ok fields hwf q (ids.map .jstr) hsafe1
    obtain ⟨b2, hb2, hb2iff⟩ := anyMatchE_ok fields hwf q
      ((ids.filter (fun s => (alistGet fields s).isSome)).map .jstr) hsafe2
    have hPP : (∃ s n c, JSON.jstr s ∈ ids.map JSON.jstr ∧
          alistGet fields s = some (defJSON s n c) ∧
          strIncludes (strToLower n) q = true) ↔
        (∃ s n c, JSON.jstr s ∈
            (ids.filter (fun t => (alistGet fields t).isSome)).map JSON.jstr ∧
          alistGet fields s = some (defJSON s n c) ∧
          strIncludes (strToLower n) q = true) := by
      constructor
      · rintro ⟨s, n, c, hmem, hget, hinc⟩
        refine ⟨s, n, c, ?_, hget, hinc⟩
        apply List.mem_map_of_mem
        apply List.mem_filter.mpr
        refine ⟨(List.mem_map_of_injective jstr_injective).mp hmem, ?_⟩
        simp [hget]
      · rintro ⟨s, n, c, hmem, hget, hinc⟩
        refine ⟨s, n, c, ?_, hget, hinc⟩
        apply List.mem_map_of_mem
        exact List.mem_of_mem_filter ((List.mem_map_of_injective jstr_injective).mp hmem)
    have hbb : b = b2 := by
      by_cases hP : ∃ s n c, JSON.jstr s ∈ ids.map JSON.jstr ∧
          alistGet fields s = some (defJSON s n c) ∧ strIncludes (strToLower n) q = true
      · rw [hbiff.mpr hP, hb2iff.mpr (hPP.mp hP)]
      · have hb3 : b ≠ true := fun hh => hP (hbiff.mp hh)
        have hb4 : b2 ≠ true := fun hh => hP (hPP.mpr (hb2iff.mp hh))
        cases b with
        | true => exact absurd rfl hb3
        | false =>
          cases b2 with
          | true => exact absurd rfl hb4
          | false => rfl
    refine ⟨b, hb, ?_⟩
    rw [hbb]
    exact hb2

/-- Witness for C6: against the Alpha/Beta definitions, a list with the
benign dangling id "gone" renders only the resolved definition, the
dangling id does not match, and dropping it leaves the filter outcome
unchanged. -/
theorem C6_dangling_tolerance_witness :
    accessoryDefsE (.jobj wfFields) [.jstr "gone", .jstr "t1"]
        = .ok (((["gone", "t1"] : List String).filterMap
            (fun s => alistGet wfFields s)).map JsProp.val) ∧
      tagMatchesE (.jobj wfFields) "wo" (.jstr "gone") = .ok false ∧
      (∃ b, anyMatchE (.jobj wfFields) "wo" [.jstr "gone", .jstr "t1"] = .ok b ∧
        anyMatchE (.jobj wfFields) "wo"
          (((["gone", "t1"] : List String).filter
              (fun s => (alistGet wfFields s).isSome)).map JSON.jstr) = .ok b) := by
  have h := C6_dangling_tolerance wfFields ["gone", "t1"] "wo" wfFields_wf (by decide)
  exact ⟨h.1, h.2.1 "gone" (List.mem_cons_self _ _) rfl, h.2.2⟩

/-- C6 counterexample: the claim as stated is false — against an empty
definitions record, the dangling assigned id "toString" resolves to the
truthy inherited Object.prototype.toString function, so it is rendered by
filter(Boolean) and matches the tag-filter query "tostring" through the
function's name, and the dangling id "__proto__" resolves to
Object.prototype itself, whose undefined .name makes the filter expression
raise a TypeError. -/
theorem C6_counterexample :
    accessoryDefsE (.jobj []) [.jstr "toString"] = .ok [JsProp.protoFun "toString"] ∧
      tagMatchesE (.jobj []) "tostring" (.jstr "toString") = .ok true ∧
      tagMatchesE (.jobj []) "wo" (.jstr "__proto__") = .error () ∧
      alistGet ([] : List (String × JSON)) "toString" = none ∧
      alistGet ([] : List (String × JSON)) "__proto__" = none :=
  ⟨rfl, rfl, rfl, rfl, rfl⟩

theorem assignView_keys_not_reserved (s : Store) (k : String)
    (h : k ∈ (assignView s).map Prod.fst) : k ∉ reservedKeys := by
  obtain ⟨q, hq, hk⟩ := List.mem_map.mp h
  obtain ⟨r, _, _, hn⟩ := assignView_mem_elim s q hq
  rw [← hk]
  exact hn

theorem map_fst_mapVal {α β : Type} (f : α → β) (l : List (String × α)) :
    (l.map (fun p => (p.1, f p.2))).map Prod.fst = l.map Prod.fst := by
  simp [List.map_map, Function.comp]

/-- C2: deletion cascade: when the component cache mirrors the store's
assignment view, deleteTag(id) completes with the definitions record no
longer containing id, the order record no longer containing id, and every
assignment record rewritten with id removed (other ids kept in order); reads
of the cached assignments afterwards see the filtered lists. -/
theorem C2_deleteTag_cascade :
    ∀ (st : AppState) (id : String) (fields : List (String × JSON)) (xs : List JSON),
      alistGet st.store TAG_DEFINITIONS_KEY = some (some (.jobj fields)) →
      alistGet st.store TAG_ORDER_KEY = some (some (.jarr xs)) →
      st.memTags = assignView st.store →
      (st.store.map Prod.fst).Nodup →
      ∃ st', deleteTag st id = .ok st' ∧
        alistGet st'.store TAG_DEFINITIONS_KEY
          = some (some (.jobj (fields.filter (fun p => p.1 != id)))) ∧
        jsPropGet (.jobj (fields.filter (fun p => p.1 != id))) id = none ∧
        alistGet st'.store TAG_ORDER_KEY
          = some (some (.jarr (xs.filter (fun v => !(jsStrictEq v (.jstr id)))))) ∧
        JSON.jstr id ∉ xs.filter (fun v => !(jsStrictEq v (.jstr id))) ∧
        (∀ k, assignRecord st'.store k
          = (assignRecord st.store k).map
              (fun ys => ys.filter (fun v => !(jsStrictEq v (.jstr id))))) ∧
        (∀ k, readAppTags st'.memTags k
          = (readAppTags st.memTags k).filter (fun v => !(jsStrictEq v (.jstr id)))) ∧
        st'.emitted = st.emitted ++ ["tagsUpdated"] := by
  intro st id fields xs hdefs horder hmem hnd
  set f : JSON → Bool := fun v => !(jsStrictEq v (.jstr id)) with hf
  set newTags : List (String × List JSON)
    := st.memTags.map (fun p => (p.1, p.2.filter f)) with hnt
  set s1 : Store := writeTagRecords st.store newTags with hs1
  have hntKeys : newTags.map Prod.fst = (assignView st.store).map Prod.fst := by
    rw [hnt, map_fst_mapVal, hmem]
  have hntNodup : (newTags.map Prod.fst).Nodup := by
    rw [hntKeys]
    exact (assignView_keys_sublist st.store).nodup hnd
  have hntRes : ∀ k ∈ reservedKeys, alistGet newTags k = none := by
    intro k hk
    apply alistGet_eq_none_of_not_mem
    rw [hntKeys]
    intro hmem2
    exact assignView_keys_not_reserved st.store k hmem2 hk
  have hs1get : ∀ k ∈ reservedKeys, alistGet s1 k = alistGet st.store k := by
    intro k hk
    rw [hs1, alistGet_writeTagRecords newTags st.store k hntNodup, hntRes k hk]
    rfl
  have hs1order : alistGet s1 TAG_ORDER_KEY = some (some (.jarr xs)) := by
    rw [hs1get TAG_ORDER_KEY (by simp [reservedKeys]), horder]
  set s2 : Store := alistSet s1 TAG_ORDER_KEY (some (.jarr (xs.filter f))) with hs2
  set s3 : Store := alistSet s2 TAG_DEFINITIONS_KEY
    (some (.jobj (fields.filter (fun p => p.1 != id)))) with hs3
  set s4 : Store := alistSet s3 REFRESH_KEY (some (.jstr (toString st.now))) with hs4
  have hdel : deleteTag st id
      = .ok ⟨s4, newTags, st.now, st.emitted ++ ["tagsUpdated"]⟩ := by
    simp only [deleteTag, hdefs, parseStored, jsDeleteProp]
    rw [← hnt, ← hs1, hs1order]
    simp only [parseStored, jsFilterOutId, persistRefreshVersion]
  have hRFDK : TAG_DEFINITIONS_KEY ≠ REFRESH_KEY := by decide
  have hRFOK : TAG_ORDER_KEY ≠ REFRESH_KEY := by decide
  have hDKOK : TAG_ORDER_KEY ≠ TAG_DEFINITIONS_KEY := by decide
  have hgetDK : alistGet s4 TAG_DEFINITIONS_KEY
      = some (some (.jobj (fields.filter (fun p => p.1 != id)))) := by
    rw [hs4, alistGet_alistSet_ne _ _ _ _ hRFDK, hs3, alistGet_alistSet_self]
  have hgetOK : alistGet s4 TAG_ORDER_KEY = some (some (.jarr (xs.filter f))) := by
    rw [hs4, alistGet_alistSet_ne _ _ _ _ hRFOK, hs3,
      alistGet_alistSet_ne _ _ _ _ hDKOK, hs2, alistGet_alistSet_self]
  refine ⟨⟨s4, newTags, st.now, st.emitted ++ ["tagsUpdated"]⟩, hdel, hgetDK,
    alistGet_filterKeyNe fields id, hgetOK, jstr_not_mem_filter_out xs id, ?_, ?_, rfl⟩
  · intro k
    by_cases hres : k ∈ reservedKeys
    · simp [assignRecord, hres]
    · have hkRF : k ≠ REFRESH_KEY := fun hh => hres (by rw [hh]; simp [reservedKeys])
      have hkDK : k ≠ TAG_DEFINITIONS_KEY := fun hh => hres (by rw [hh]; simp [reservedKeys])
      have hkOK : k ≠ TAG_ORDER_KEY := fun hh => hres (by rw [hh]; simp [reservedKeys])
      have hks1 : alistGet s4 k = alistGet s1 k := by
        rw [hs4, alistGet_alistSet_ne _ _ _ _ hkRF, hs3,
          alistGet_alistSet_ne _ _ _ _ hkDK, hs2, alistGet_alistSet_ne _ _ _ _ hkOK]
      have hnew : alistGet newTags k = (alistGet st.memTags k).map
          (fun ys => ys.filter f) := by
        rw [hnt]
        exact alistGet_mapVal _ _ _
      have hmemk : alistGet st.memTags k = assignRecord st.store k := by
        rw [hmem]
        exact alistGet_assignView st.store hnd k
      rw [show assignRecord s4 k = (alistGet s4 k).bind decodeAppTags from
        by simp [assignRecord, hres]]
      rw [hks1, hs1, alistGet_writeTagRecords newTags st.store k hntNodup, hnew, hmemk]
      have hstrec : assignRecord st.store k = (alistGet st.store k).bind decodeAppTags := by
        simp [assignRecord, hres]
      cases har : assignRecord st.store k with
      | none =>
        show (alistGet st.store k).bind decodeAppTags = none
        rw [← hstrec]
        exact har
      | some ys =>
        rfl
  · intro k
    simp only [readAppTags]
    rw [hnt, alistGet_mapVal]
    cases hm : alistGet st.memTags k with
    | none => rfl
    | some ys => rfl

/-- The state after createTag("Work","#FF0000") from an empty store. -/
def c2AfterCreate : AppState :=
  ⟨[(TAG_DEFINITIONS_KEY, some (.jobj [("t1", defJSON "t1" "Work" "#FF0000")])),
    (TAG_ORDER_KEY, some (.jarr [.jstr "t1"])),
    (REFRESH_KEY, some (.jstr "0"))], [], 0, ["tagsUpdated"]⟩

/-- The state after additionally assigning the new tag as app A's only tag. -/
def c2Mid : AppState :=
  ⟨[(TAG_DEFINITIONS_KEY, some (.jobj [("t1", defJSON "t1" "Work" "#FF0000")])),
    (TAG_ORDER_KEY, some (.jarr [.jstr "t1"])),
    (REFRESH_KEY, some (.jstr "0")),
    ("A", some (.jarr [.jstr "t1"]))],
   [("A", [.jstr "t1"])], 0, ["tagsUpdated", "tagsUpdated"]⟩

/-- Witness for C2: the claim's concrete sequence — createTag, assign to app
A, deleteTag — after which A's tags read back empty and the definition is
gone. -/
theorem C2_deleteTag_cascade_witness :
    createTag ⟨[], [], 0, []⟩ "t1" "Work" "#FF0000" = .ok c2AfterCreate ∧
      saveTags c2AfterCreate "A" ["t1"] = c2Mid ∧
      (∃ st', deleteTag c2Mid "t1" = .ok st' ∧
        alistGet st'.store TAG_DEFINITIONS_KEY = some (some (.jobj [])) ∧
        alistGet st'.store TAG_ORDER_KEY = some (some (.jarr [])) ∧
        readAppTags st'.memTags "A" = []) := by
  refine ⟨rfl, rfl, ?_⟩
  obtain ⟨st', h1, h2, h3, h4, h5, h6, h7, h8⟩ :=
    C2_deleteTag_cascade c2Mid "t1" [("t1", defJSON "t1" "Work" "#FF0000")] [.jstr "t1"]
      rfl rfl rfl (by decide)
  exact ⟨st', h1, h2, h4, h7 "A"⟩

/-! Reconciliation lemmas for C1. -/

theorem reconcileOrder_strings (L K : List String) :
    reconcileOrder (.jarr (L.map .jstr)) K = .ok ((specReconciledOrder L K).map .jstr) := by
  by_cases hL : L = []
  · subst hL
    simp only [reconcileOrder, jsLenIsZero, List.map_nil, List.isEmpty_nil, if_true,
      specReconciledOrder, List.filter_nil, List.nil_append]
    have : K.filter (fun i => decide (i ∉ ([] : List String))) = K := by
      apply List.filter_eq_self.mpr
      intro a ha
      simp
    rw [this]
  · have hne : jsLenIsZero (.jarr (L.map .jstr)) = false := by
      cases L with
      | nil => exact absurd rfl hL
      | cons a L => rfl
    simp only [reconcileOrder, hne, Bool.false_eq_true, if_false]
    rw [filter_jsIncludes_map]
    have hsecond : K.filter (fun i => !((L.map JSON.jstr).any (fun v => jsStrictEq v (.jstr i))))
        = K.filter (fun i => decide (i ∉ L)) := by
      apply List.filter_congr
      intro x hx
      rw [any_strictEq_jstr]
      simp
    rw [hsecond, specReconciledOrder, List.map_append]

theorem specReconciledOrder_nodup (L K : List String) (hL : L.Nodup) (hK : K.Nodup) :
    (specReconciledOrder L K).Nodup := by
  apply List.Nodup.append
  · exact hL.filter _
  · exact hK.filter _
  · intro x hx1 hx2
    have hmem1 : x ∈ L := List.mem_of_mem_filter hx1
    have h2 := List.of_mem_filter hx2
    simp only [decide_eq_true_eq] at h2
    exact h2 hmem1

theorem specReconciledOrder_mem (L K : List String) (x : String) :
    x ∈ specReconciledOrder L K ↔ x ∈ K := by
  simp only [specReconciledOrder, List.mem_append, List.mem_filter, decide_eq_true_eq]
  by_cases hx : x ∈ L
  · simp [hx]
  · simp [hx]

/-- The decoded-store order invariant of C1: the stored definitions value
parses as an object, the stored order parses as an array of id strings,
both are duplicate-free, and the order carries exactly the definition ids. -/
def OrderInvAt (s : Store) (fields : List (String × JSON)) (L : List String) : Prop :=
  parseStored (alistGet s TAG_DEFINITIONS_KEY) (.jobj []) = .ok (.jobj fields) ∧
  parseStored (alistGet s TAG_ORDER_KEY) (.jarr []) = .ok (.jarr (L.map .jstr)) ∧
  (fields.map Prod.fst).Nodup ∧ L.Nodup ∧
  (∀ x, x ∈ L ↔ x ∈ fields.map Prod.fst)

/-- C1 (amended): on every load, the returned order equals the stored order
entries filtered to ids present in definitions (in stored order) followed by
definition ids absent from the stored order (in object-key iteration order);
when the stored order contains no duplicate entries — the code does not
deduplicate a corrupt stored order — the reconciled order contains exactly
the set of definition ids, each exactly once, with dangling and missing ids
repaired; and the invariant is preserved by every createTag (with a fresh
generated id) and deleteTag call starting from a state where it holds. -/
theorem C1_order_reconciliation :
    (∀ (s : Store) (fields : List (String × JSON)) (L : List String),
      decodeTagDefinitions (alistGet s TAG_DEFINITIONS_KEY) = .jobj fields →
      decodeTagOrder (alistGet s TAG_ORDER_KEY) = .jarr (L.map .jstr) →
      (fields.map Prod.fst).Nodup → L.Nodup →
      ∃ r, (loadStoredTags s).2 = .ok r ∧
        r.tagOrder = (specReconciledOrder L (fields.map Prod.fst)).map .jstr ∧
        r.tagOrder.Nodup ∧
        (∀ x, JSON.jstr x ∈ r.tagOrder ↔ x ∈ fields.map Prod.fst)) ∧
    (∀ (st : AppState) (fields : List (String × JSON)) (L : List String)
        (id name color : String),
      OrderInvAt st.store fields L →
      id ∉ fields.map Prod.fst →
      ∃ st', createTag st id name color = .ok st' ∧
        OrderInvAt st'.store (fields ++ [(id, defJSON id name color)]) (L ++ [id])) ∧
    (∀ (st : AppState) (fields : List (String × JSON)) (L : List String) (id : String),
      OrderInvAt st.store fields L →
      st.memTags = assignView st.store →
      (st.store.map Prod.fst).Nodup →
      ∃ st', deleteTag st id = .ok st' ∧
        OrderInvAt st'.store (fields.filter (fun p => p.1 != id))
          (L.filter (fun x => x != id))) := by
  have hDKRF : TAG_DEFINITIONS_KEY ≠ REFRESH_KEY := by decide
  have hOKRF : TAG_ORDER_KEY ≠ REFRESH_KEY := by decide
  have hOKDK : TAG_ORDER_KEY ≠ TAG_DEFINITIONS_KEY := by decide
  have hDKOK : TAG_DEFINITIONS_KEY ≠ TAG_ORDER_KEY := by decide
  refine ⟨?_, ?_, ?_⟩
  · intro s fields L hdefs horder hnodK hnodL
    refine ⟨⟨assignView s, .jobj fields,
      (specReconciledOrder L (fields.map Prod.fst)).map .jstr⟩, ?_, rfl, ?_, ?_⟩
    · simp only [loadStoredTags, allItems]
      rw [hdefs, horder]
      simp only [objKeysE]
      rw [reconcileOrder_strings]
    · exact (specReconciledOrder_nodup L _ hnodL hnodK).map jstr_injective
    · intro x
      constructor
      · intro hx
        obtain ⟨y, hy, hxy⟩ := List.mem_map.mp hx
        rw [← jstr_injective hxy]
        exact (specReconciledOrder_mem L _ y).mp hy
      · intro hx
        exact List.mem_map.mpr ⟨x, (specReconciledOrder_mem L _ x).mpr hx, rfl⟩
  · intro st fields L id name color hinv hfresh
    obtain ⟨hd, ho, hnodK, hnodL, hiff⟩ := hinv
    have hset : alistSet fields id (defJSON id name color)
        = fields ++ [(id, defJSON id name color)] :=
      alistSet_eq_append fields id _ hfresh
    set s1 : Store := alistSet st.store TAG_DEFINITIONS_KEY
      (some (.jobj (fields ++ [(id, defJSON id name color)]))) with hs1
    have hs1OK : alistGet s1 TAG_ORDER_KEY = alistGet st.store TAG_ORDER_KEY := by
      rw [hs1]
      exact alistGet_alistSet_ne _ _ _ _ hOKDK
    set s2 : Store := alistSet s1 TAG_ORDER_KEY
      (some (.jarr (L.map JSON.jstr ++ [.jstr id]))) with hs2
    set s3 : Store := alistSet s2 REFRESH_KEY (some (.jstr (toString st.now))) with hs3
    have hstep : createTag st id name color
        = .ok ⟨s3, st.memTags, st.now, st.emitted ++ ["tagsUpdated"]⟩ := by
      simp only [createTag]
      rw [hd]
      simp only [jsObjSet]
      rw [hset, ← hs1, hs1OK, ho]
      simp only [jsSpreadArr, persistRefreshVersion]
    refine ⟨⟨s3, st.memTags, st.now, st.emitted ++ ["tagsUpdated"]⟩, hstep, ?_, ?_, ?_, ?_, ?_⟩
    · show parseStored (alistGet s3 TAG_DEFINITIONS_KEY) (.jobj []) = _
      rw [hs3, alistGet_alistSet_ne _ _ _ _ hDKRF, hs2,
        alistGet_alistSet_ne _ _ _ _ hDKOK, hs1, alistGet_alistSet_self]
      rfl
    · show parseStored (alistGet s3 TAG_ORDER_KEY) (.jarr []) = _
      rw [hs3, alistGet_alistSet_ne _ _ _ _ hOKRF, hs2, alistGet_alistSet_self]
      simp [parseStored, List.map_append]
    · rw [List.map_append]
      apply List.Nodup.append hnodK (by simp)
      intro x hx1 hx2
      simp only [List.map_cons, List.map_nil, List.mem_singleton] at hx2
      subst hx2
      exact hfresh hx1
    · apply List.Nodup.append hnodL (by simp)
      intro x hx1 hx2
      simp only [List.mem_singleton] at hx2
      subst hx2
      exact hfresh ((hiff x).mp hx1)
    · intro x
      rw [List.map_append]
      simp only [List.mem_append, List.mem_singleton, List.map_cons, List.map_nil,
        hiff x]
  · intro st fields L id hinv hmem hnd
    obtain ⟨hd, ho, hnodK, hnodL, hiff⟩ := hinv
    set f : JSON → Bool := fun v => !(jsStrictEq v (.jstr id)) with hf
    set newTags : List (String × List JSON)
      := st.memTags.map (fun p => (p.1, p.2.filter f)) with hnt
    set s1 : Store := writeTagRecords st.store newTags with hs1
    have hntKeys : newTags.map Prod.fst = (assignView st.store).map Prod.fst := by
      rw [hnt, map_fst_mapVal, hmem]
    have hntNodup : (newTags.map Prod.fst).Nodup := by
      rw [hntKeys]
      exact (assignView_keys_sublist st.store).nodup hnd
    have hs1OK : alistGet s1 TAG_ORDER_KEY = alistGet st.store TAG_ORDER_KEY := by
      have hnone : alistGet newTags TAG_ORDER_KEY = none := by
        apply alistGet_eq_none_of_not_mem
        rw [hntKeys]
        intro hmem2
        exact assignView_keys_not_reserved st.store _ hmem2 (by simp [reservedKeys])
      rw [hs1, alistGet_writeTagRecords newTags st.store _ hntNodup, hnone]
      rfl
    set s2 : Store := alistSet s1 TAG_ORDER_KEY
      (some (.jarr ((L.map JSON.jstr).filter f))) with hs2
    set s3 : Store := alistSet s2 TAG_DEFINITIONS_KEY
      (some (.jobj (fields.filter (fun p => p.1 != id)))) with hs3
    set s4 : Store := alistSet s3 REFRESH_KEY (some (.jstr (toString st.now))) with hs4
    have hstep : deleteTag st id
        = .ok ⟨s4, newTags, st.now, st.emitted ++ ["tagsUpdated"]⟩ := by
      simp only [deleteTag]
      rw [hd]
      simp only [jsDeleteProp]
      rw [← hnt, ← hs1, hs1OK, ho]
      simp only [jsFilterOutId, persistRefreshVersion]
    refine ⟨⟨s4, newTags, st.now, st.emitted ++ ["tagsUpdated"]⟩, hstep, ?_, ?_, ?_, ?_, ?_⟩
    · show parseStored (alistGet s4 TAG_DEFINITIONS_KEY) (.jobj []) = _
      rw [hs4, alistGet_alistSet_ne _ _ _ _ hDKRF, hs3, alistGet_alistSet_self]
      rfl
    · show parseStored (alistGet s4 TAG_ORDER_KEY) (.jarr []) = _
      rw [hs4, alistGet_alistSet_ne _ _ _ _ hOKRF, hs3,
        alistGet_alistSet_ne _ _ _ _ hOKDK, hs2, alistGet_alistSet_self]
      rw [hf, filter_out_jstr]
      rfl
    · rw [map_fst_filter_keyNe]
      exact hnodK.filter _
    · exact hnodL.filter _
    · intro x
      rw [map_fst_filter_keyNe]
      simp only [List.mem_filter, hiff x]

/-- A store with two definitions, a stored order holding one valid and one
dangling id (so reconciliation both filters and appends). -/
def c1Store : Store :=
  [(TAG_DEFINITIONS_KEY, some (.jobj [("a", defJSON "a" "A" "#AAAAAA"),
      ("b", defJSON "b" "B" "#BBBBBB")])),
   (TAG_ORDER_KEY, some (.jarr [.jstr "b", .jstr "zz"]))]

/-- A consistent one-tag state for the createTag/deleteTag parts of the C1
witness. -/
def c1TagState : AppState :=
  ⟨[(TAG_DEFINITIONS_KEY, some (.jobj [("t1", defJSON "t1" "Work" "#FF0000")])),
    (TAG_ORDER_KEY, some (.jarr [.jstr "t1"])),
    (REFRESH_KEY, some (.jstr "0"))], [], 0, []⟩

/-- Witness for C1: reconciliation on a corrupt store (dangling plus missing
id), and invariant preservation across a concrete createTag and deleteTag. -/
theorem C1_order_reconciliation_witness :
    (∃ r, (loadStoredTags c1Store).2 = .ok r ∧
      r.tagOrder = (specReconciledOrder ["b", "zz"] ["a", "b"]).map .jstr ∧
      r.tagOrder.Nodup ∧
      (∀ x, JSON.jstr x ∈ r.tagOrder ↔ x ∈ ["a", "b"])) ∧
    (∃ st', createTag ⟨[], [], 0, []⟩ "t1" "Work" "#FF0000" = .ok st' ∧
      OrderInvAt st'.store [("t1", defJSON "t1" "Work" "#FF0000")] ["t1"]) ∧
    (∃ st', deleteTag c1TagState "t1" = .ok st' ∧ OrderInvAt st'.store [] []) := by
  refine ⟨?_, ?_, ?_⟩
  · exact C1_order_reconciliation.1 c1Store
      [("a", defJSON "a" "A" "#AAAAAA"), ("b", defJSON "b" "B" "#BBBBBB")] ["b", "zz"]
      rfl rfl (by decide) (by decide)
  · have h := C1_order_reconciliation.2.1 ⟨[], [], 0, []⟩ [] [] "t1" "Work" "#FF0000"
      ⟨rfl, rfl, by decide, by decide, fun x => by simp⟩ (by simp)
    obtain ⟨st', h1, h2⟩ := h
    exact ⟨st', h1, h2⟩
  · have h := C1_order_reconciliation.2.2 c1TagState
      [("t1", defJSON "t1" "Work" "#FF0000")] ["t1"] "t1"
      ⟨rfl, rfl, by decide, by decide, fun x => Iff.rfl⟩ rfl (by decide)
    obtain ⟨st', h1, h2⟩ := h
    exact ⟨st', h1, h2⟩

/-- The corrupt store of the C1 counterexample: the stored order lists the
id "x" twice. -/
def c1DupStore : Store :=
  [(TAG_DEFINITIONS_KEY, some (.jobj [("x", defJSON "x" "W" "#FF0000")])),
   (TAG_ORDER_KEY, some (.jarr [.jstr "x", .jstr "x"]))]

/-- C1 counterexample: the claim as stated is false — a stored order with a
duplicated id survives reconciliation with the duplicate intact, so the
reconciled order does not contain each id exactly once. -/
theorem C1_counterexample :
    (loadStoredTags c1DupStore).2
        = .ok ⟨[], .jobj [("x", defJSON "x" "W" "#FF0000")], [.jstr "x", .jstr "x"]⟩ ∧
      ¬ ([JSON.jstr "x", JSON.jstr "x"] : List JSON).Nodup :=
  ⟨rfl, by simp⟩
